import Mathlib

/-!
Shallow embedding of the core of the `spredd-api` gateway (venue adapters,
trade pipeline, position ledger, token-bucket rate limiter, arbitrage
scanner) together with theorems settling the specification claims.
Numeric venue values (`Decimal`, `float`) are embedded as exact rationals.
-/

namespace Spredd

/-- Python truthiness of an optional numeric value: `None` and `0` are falsy. -/
def truthyQ : Option ℚ → Bool
  | none => false
  | some x => x != 0

/-- Embedding of the Python expression `a or b` for an optional numeric `a`
and a fallback `b`: yields `a` exactly when `a` is present and nonzero. -/
def pyOr (a : Option ℚ) (b : ℚ) : ℚ :=
  match a with
  | some x => if x = 0 then b else x
  | none => b

/-- Round half to even, the tie-breaking rule of Python `round`. -/
def rhe (q : ℚ) : ℤ :=
  if q - ⌊q⌋ < 1/2 then ⌊q⌋
  else if 1/2 < q - ⌊q⌋ then ⌊q⌋ + 1
  else if ⌊q⌋ % 2 = 0 then ⌊q⌋ else ⌊q⌋ + 1

/-- Round to `k` decimal places, the embedding of Python `round(x, k)`
applied to exact decimal values. -/
def roundTo (k : ℕ) (q : ℚ) : ℚ := rhe (q * (10 : ℚ) ^ k) / (10 : ℚ) ^ k

/-- Market outcome sides (`app/platforms/base.py`, `class Outcome`). -/
inductive Outcome
  | yes
  | no
deriving DecidableEq

/-- Embedding of the `OrderBook` dataclass of `app/platforms/base.py`:
bid and ask lists of (price, size) pairs. -/
structure OrderBook where
  market_id : String
  outcome : Outcome
  bids : List (ℚ × ℚ)
  asks : List (ℚ × ℚ)
deriving DecidableEq

/-- Embedding of `OrderBook.best_bid`: `self.bids[0][0] if self.bids else None`. -/
def OrderBook.best_bid (ob : OrderBook) : Option ℚ :=
  ob.bids.head?.map Prod.fst

/-- Embedding of `OrderBook.best_ask`: `self.asks[0][0] if self.asks else None`. -/
def OrderBook.best_ask (ob : OrderBook) : Option ℚ :=
  ob.asks.head?.map Prod.fst

/-- Embedding of `OrderBook.spread`: `if self.best_bid and self.best_ask`
returns `best_ask - best_bid`, else `None`.  The guard is Python
truthiness, so a zero best bid or ask yields `None`. -/
def OrderBook.spread (ob : OrderBook) : Option ℚ :=
  if truthyQ ob.best_bid && truthyQ ob.best_ask then
    some (ob.best_ask.getD 0 - ob.best_bid.getD 0)
  else none

/-- Market fields relevant to quoting, as cached by the order-book-priced
adapters (`app/platforms/opinion.py`, `app/platforms/limitless.py`). -/
structure QMarket where
  yes_price : Option ℚ
  no_price : Option ℚ
deriving DecidableEq

/-- Quote fields produced by `get_quote` of the order-book-priced adapters. -/
structure AdapterQuote where
  side : String
  input_amount : ℚ
  expected_output : ℚ
  price_per_token : ℚ
  price_impact : Option ℚ
deriving DecidableEq

/-- Failure raised by `get_quote` when the market is absent. -/
inductive QuoteErr
  | marketNotFound
deriving DecidableEq

/-- Venue responses seen by one `get_quote` call: the `get_market` lookup
result and the `get_orderbook` result (which never raises: a failed book
fetch degrades to empty bid/ask lists). -/
structure QuoteEnv where
  market : Option QMarket
  ob : OrderBook

/-- Embedding of `OpinionPlatform.get_quote` (`app/platforms/opinion.py`,
lines 156-188); `LimitlessPlatform.get_quote` (`app/platforms/limitless.py`,
lines 164-195) is identical in price sourcing and output computation.
Price chain for a buy: `ob.best_ask or (market.yes_price if outcome YES
else market.no_price) or Decimal("0.5")`, then
`expected_output = amount / price if price > 0 else 0`; for a sell the
chain starts at `ob.best_bid` and `expected_output = amount * price`. -/
def get_quote (env : QuoteEnv) (outcome : Outcome) (side : String) (amount : ℚ) :
    Except QuoteErr AdapterQuote :=
  match env.market with
  | none => .error .marketNotFound
  | some market =>
    let mp : Option ℚ := match outcome with
      | .yes => market.yes_price
      | .no => market.no_price
    if side = "buy" then
      let price := pyOr (OrderBook.best_ask env.ob) (pyOr mp (1/2))
      .ok { side := side, input_amount := amount,
            expected_output := if price > 0 then amount / price else 0,
            price_per_token := price, price_impact := OrderBook.spread env.ob }
    else
      let price := pyOr (OrderBook.best_bid env.ob) (pyOr mp (1/2))
      .ok { side := side, input_amount := amount,
            expected_output := amount * price,
            price_per_token := price, price_impact := OrderBook.spread env.ob }

/-- Unique key of a `Position` row (`app/db/models.py`): the columns of the
table's unique constraint. -/
structure PosKey where
  api_key_id : String
  wallet_address : String
  platform : String
  market_id : String
  outcome : String
deriving DecidableEq

/-- Position status enum of `app/db/models.py`. -/
inductive PositionStatus
  | OPEN
  | CLOSED
deriving DecidableEq

/-- Mutable fields of a `Position` row touched by the upsert.  The stored
string/float fields are embedded as exact rationals. -/
structure Position where
  token_amount : ℚ
  avg_entry_price : ℚ
  current_price : Option ℚ
  status : PositionStatus
deriving DecidableEq

/-- Embedding of `upsert_position` (`app/services/position_tracker.py`).
The store is a map from the unique key to the row.  If a row exists, the
new total is `old amount + delta`; when positive the volume-weighted
average entry price and the total are stored, otherwise the amount is set
to `"0"` and the status to `CLOSED`; `current_price` is updated whenever
the argument is not `None`.  If no row exists a fresh row is created
(note the create branch stores `current_price` only when truthy). -/
def upsert_position (db : PosKey → Option Position) (k : PosKey)
    (token_amount entry_price : ℚ) (current_price : Option ℚ) :
    PosKey → Option Position :=
  let newRow : Position :=
    match db k with
    | some position =>
      let old_amount := position.token_amount
      let old_avg := position.avg_entry_price
      let new_total := old_amount + token_amount
      let p1 : Position :=
        if new_total > 0 then
          { position with
            avg_entry_price := (old_avg * old_amount + entry_price * token_amount) / new_total,
            token_amount := new_total }
        else
          { position with token_amount := 0, status := .CLOSED }
      match current_price with
      | some cp => { p1 with current_price := some cp }
      | none => p1
    | none =>
      { token_amount := token_amount,
        avg_entry_price := entry_price,
        current_price := match current_price with
          | some cp => if cp = 0 then none else some cp
          | none => none,
        status := .OPEN }
  fun k' => if k' = k then some newRow else db k'

/-- Embedding of `TokenBucket` (`app/auth/rate_limiter.py`): capacity
`rate`, refill period, real-valued token count, last refill instant. -/
structure TokenBucket where
  rate : ℚ
  period : ℚ
  tokens : ℚ
  last_refill : ℚ
deriving DecidableEq

/-- Constructor `TokenBucket(rate, period=60.0)` taken at instant `now`
(`time.monotonic()`): starts full. -/
def TokenBucket.init (rate : ℕ) (period : ℚ) (now : ℚ) : TokenBucket :=
  { rate := rate, period := period, tokens := rate, last_refill := now }

/-- Embedding of `TokenBucket.consume` evaluated at instant `now`: refill
`elapsed * (rate / period)` capped at `rate`, then take one token if at
least one is available. -/
def TokenBucket.consume (b : TokenBucket) (now : ℚ) : Bool × TokenBucket :=
  let elapsed := now - b.last_refill
  let tokens := min b.rate (b.tokens + elapsed * (b.rate / b.period))
  if tokens ≥ 1 then
    (true, { b with tokens := tokens - 1, last_refill := now })
  else
    (false, { b with tokens := tokens, last_refill := now })

/-- Repeated consumption at a fixed instant: the conjunction of all
results and the final bucket after `n` consecutive `consume()` calls. -/
def TokenBucket.consumeRun (b : TokenBucket) (now : ℚ) : ℕ → Bool × TokenBucket
  | 0 => (true, b)
  | n + 1 =>
    let r := TokenBucket.consume b now
    let rest := TokenBucket.consumeRun r.2 now n
    (r.1 && rest.1, rest.2)

/-- One caller's pair of limiter buckets (`rate_limiter_store` entries for
limit classes `rpm` and `tpm` of the same key). -/
structure LimiterState where
  req_bucket : TokenBucket
  trade_bucket : TokenBucket
deriving DecidableEq

/-- Outcome of the `require_trade_limit` dependency: pass, or one of the
two distinguishable 429 rejections. -/
inductive LimitOutcome
  | allowed
  | requestLimited
  | tradeLimited
deriving DecidableEq

/-- Embedding of `require_trade_limit` (`app/dependencies.py`, lines
38-62): consume from the request-class bucket; on denial reject with the
request-class error; otherwise consume from the trade-class bucket; on
denial reject with the trade-class error; otherwise allow.  Bucket
mutations persist in the store in every branch. -/
def require_trade_limit (s : LimiterState) (now : ℚ) : LimitOutcome × LimiterState :=
  let r1 := TokenBucket.consume s.req_bucket now
  if r1.1 = false then
    (.requestLimited, { s with req_bucket := r1.2 })
  else
    let r2 := TokenBucket.consume s.trade_bucket now
    if r2.1 = false then
      (.tradeLimited, { req_bucket := r1.2, trade_bucket := r2.2 })
    else
      (.allowed, { req_bucket := r1.2, trade_bucket := r2.2 })

/-- Trade row status enum of `app/db/models.py`. -/
inductive TradeStatus
  | QUOTED
  | PREPARED
  | SUBMITTED
  | CONFIRMED
  | FAILED
deriving DecidableEq

/-- Trade row mode enum of `app/db/models.py`. -/
inductive TradeMode
  | PREPARE
  | EXECUTE
deriving DecidableEq

/-- Adapter `TradeResult` (`app/platforms/base.py`). -/
structure TradeResult where
  success : Bool
  tx_hash : Option String
  output_amount : Option ℚ
  error_message : Option String
deriving DecidableEq

/-- External behaviour seen by one call of the execute endpoint after the
venue is resolved: the adapter re-quote result, the private-key conversion
result, the request side, and the adapter execution result as a function
of the quote it is handed. -/
structure ExecEnv where
  side : String
  quoteResult : Except String AdapterQuote
  keyResult : Except String Unit
  execResult : AdapterQuote → TradeResult

/-- Observable step of the execute endpoint, in program order. -/
inductive Evt
  | persistTrade (st : TradeStatus) (mode : TradeMode)
  | adapterQuote
  | keyConvert
  | adapterExecute
  | updateStatus (st : TradeStatus)
  | posUpsert (token_amount entry_price current_price : ℚ)
  | httpError (code : ℕ)
  | httpOk
deriving DecidableEq

/-- Embedding of the execute endpoint `execute_trade`
(`app/routes/trading.py`, lines 123-213) as its sequence of observable
steps: persist a row with status `SUBMITTED` / mode `EXECUTE` and commit;
re-quote (a raise updates the row to `FAILED` and returns 400); convert
the private key (a raise updates the row to `FAILED` and returns 400);
call the adapter; update the row to `CONFIRMED` if the result's success
flag is set, else `FAILED`; on success with side `buy`, upsert the
position with the quote's expected output and price; finally answer 500
on failure, 200 on success. -/
def execute_trade_events (env : ExecEnv) : List Evt :=
  Evt.persistTrade .SUBMITTED .EXECUTE ::
  Evt.adapterQuote ::
  match env.quoteResult with
  | .error _ => [Evt.updateStatus .FAILED, Evt.httpError 400]
  | .ok quote =>
    Evt.keyConvert ::
    match env.keyResult with
    | .error _ => [Evt.updateStatus .FAILED, Evt.httpError 400]
    | .ok _ =>
      let result := env.execResult quote
      Evt.adapterExecute ::
      Evt.updateStatus (if result.success then .CONFIRMED else .FAILED) ::
      ((if result.success && (env.side == "buy") then
          [Evt.posUpsert quote.expected_output quote.price_per_token quote.price_per_token]
        else []) ++
       (if result.success then [Evt.httpOk] else [Evt.httpError 500]))

/-- Status the persisted trade row is left at after a sequence of steps:
the last persisted or updated status, if any. -/
def rowStatus (evts : List Evt) : Option TradeStatus :=
  evts.foldl
    (fun acc e =>
      match e with
      | Evt.persistTrade st _ => some st
      | Evt.updateStatus st => some st
      | _ => acc)
    none

/-- One page of the paginated venue market-list response: raw records
(`none` marks a record on which `_parse_market` raises) and the returned
cursor. -/
structure FetchPage where
  markets : List (Option QMarket)
  cursor : Option String

/-- Cursor request parameter: `if cursor: params["cursor"] = cursor`
(Python truthiness, so an empty-string cursor is not sent). -/
def cursorParam (cursor : Option String) : Option String :=
  match cursor with
  | some c => if c = "" then none else some c
  | none => none

/-- Embedding of the cursor pagination loop of
`KalshiPlatform._fetch_all_markets` (`app/platforms/kalshi.py`, lines
122-141).  `upstream` maps the request index and its cursor parameter to
the response, `none` meaning the request raised.  Each iteration performs
exactly one page fetch; a raised fetch breaks out of the loop returning
the markets accumulated so far; parsed records are appended, malformed
ones skipped; the loop also breaks when the returned cursor is falsy or
the page empty.  The result carries the number of page fetches made. -/
def fetchLoop (upstream : ℕ → Option String → Option FetchPage) :
    ℕ → ℕ → Option String → List QMarket → List QMarket × ℕ
  | 0, calls, _, acc => (acc, calls)
  | fuel + 1, calls, cursor, acc =>
    match upstream calls (cursorParam cursor) with
    | none => (acc, calls + 1)
    | some page =>
      let acc2 := acc ++ page.markets.filterMap id
      if cursorParam page.cursor = none ∨ page.markets = [] then
        (acc2, calls + 1)
      else
        fetchLoop upstream fuel (calls + 1) page.cursor acc2

/-- Full cache-miss re-fetch, the `for _ in range(25)` loop starting with
no cursor and an empty accumulator. -/
def fetch_all_markets (upstream : ℕ → Option String → Option FetchPage) :
    List QMarket × ℕ :=
  fetchLoop upstream 25 0 none []

/-- Market fields used by the arbitrage scanner
(`app/routes/arbitrage.py`). -/
structure AMarket where
  platform : String
  title : String
  yes_price : Option ℚ
  is_active : Bool
deriving DecidableEq

/-- Reported opportunity, the `ArbitrageOpportunity` response model. -/
structure Opp where
  market_title : String
  outcome : String
  buy_platform : String
  buy_price : ℚ
  sell_platform : String
  sell_price : ℚ
  spread : ℚ
  spread_pct : ℚ
deriving DecidableEq

/-- Strip leading and trailing whitespace from a character list. -/
def stripChars (cs : List Char) : List Char :=
  ((cs.dropWhile Char.isWhitespace).reverse.dropWhile Char.isWhitespace).reverse

/-- Normalized grouping key `m.title.lower().strip()`, modelled at the
character level (lower-case each character, strip outer whitespace). -/
def normKey (t : String) : String :=
  String.mk (stripChars (t.data.map Char.toLower))

/-- Filter deciding whether a market enters the scan:
`if m.yes_price and m.is_active` (Python truthiness on the price). -/
def scanned (m : AMarket) : Bool :=
  truthyQ m.yes_price && m.is_active

/-- Embedding of `all_markets.setdefault(key, []).append(m)` on an
insertion-ordered association list of groups. -/
def addMarket : List (String × List AMarket) → String → AMarket →
    List (String × List AMarket)
  | [], key, m => [(key, [m])]
  | (k, l) :: rest, key, m =>
    if k = key then (k, l ++ [m]) :: rest
    else (k, l) :: addMarket rest key m

/-- Left-to-right grouping pass over the collected market lists. -/
def collectAux : List (String × List AMarket) → List AMarket →
    List (String × List AMarket)
  | gs, [] => gs
  | gs, m :: rest =>
    collectAux (if scanned m then addMarket gs (normKey m.title) m else gs) rest

/-- The `all_markets` grouping dict of `get_arbitrage_opportunities`:
markets that pass the filter, grouped by normalized title in insertion
order. -/
def collect (ms : List AMarket) : List (String × List AMarket) :=
  collectAux [] ms

/-- Group content lookup: the market list stored under key `k`, empty
when the key is absent. -/
def groupList (gs : List (String × List AMarket)) (k : String) : List AMarket :=
  match gs.find? (fun g => g.1 == k) with
  | some g => g.2
  | none => []

/-- Ordered pairs `(markets[i], markets[j])` with `i < j`, the double
index loop of the scanner. -/
def pairsFrom : List AMarket → List (AMarket × AMarket)
  | [] => []
  | m :: rest => rest.map (fun m2 => (m, m2)) ++ pairsFrom rest

/-- Body of the pair loop: skip same-platform pairs and pairs with a
falsy yes-price; assign buy to the lower-priced and sell to the
higher-priced market; report when `spread >= min_spread`, with the
reported spread rounded to 4 decimals and the spread percentage to 2. -/
def mkOpp (min_spread : ℚ) (m1 m2 : AMarket) : Option Opp :=
  if m1.platform = m2.platform then none
  else if truthyQ m1.yes_price = false ∨ truthyQ m2.yes_price = false then none
  else
    let p1 := m1.yes_price.getD 0
    let p2 := m2.yes_price.getD 0
    let spread := if p1 < p2 then p2 - p1 else p1 - p2
    let buy := if p1 < p2 then m1 else m2
    let sell := if p1 < p2 then m2 else m1
    if spread ≥ min_spread then
      let avg_price := (p1 + p2) / 2
      some { market_title := m1.title, outcome := "YES",
             buy_platform := buy.platform, buy_price := buy.yes_price.getD 0,
             sell_platform := sell.platform, sell_price := sell.yes_price.getD 0,
             spread := roundTo 4 spread,
             spread_pct := if avg_price > 0 then roundTo 2 (spread / avg_price * 100) else 0 }
    else none

/-- The `opportunities` list before sorting and truncation: for every
group of size at least two, every in-order cross pair that the body
reports. -/
def opportunities (ms : List AMarket) (min_spread : ℚ) : List Opp :=
  (collect ms).flatMap fun g =>
    if g.2.length < 2 then []
    else (pairsFrom g.2).filterMap fun p => mkOpp min_spread p.1 p.2

/-- Descending order on the reported spread, the key of the final sort. -/
def spreadGE (a b : Opp) : Prop := b.spread ≤ a.spread

instance : DecidableRel spreadGE :=
  fun a b => inferInstanceAs (Decidable (b.spread ≤ a.spread))

instance : IsTotal Opp spreadGE := ⟨fun a b => le_total b.spread a.spread⟩

instance : IsTrans Opp spreadGE := ⟨fun _ _ _ h1 h2 => le_trans h2 h1⟩

/-- Embedding of the endpoint tail:
`opportunities.sort(key=lambda x: x.spread, reverse=True)` (a stable
sort) followed by `opportunities[:limit]`. -/
def scan (ms : List AMarket) (min_spread : ℚ) (limit : ℕ) : List Opp :=
  (List.insertionSort spreadGE (opportunities ms min_spread)).take limit

end Spredd


namespace Spredd

/-! Helper lemmas about the token bucket. -/

/-- With no elapsed time and a token count within capacity, a consume
refills nothing: it takes one token when at least one is available and
otherwise leaves the bucket unchanged. -/
theorem consume_no_elapsed (b : TokenBucket) (now : ℚ)
    (h : b.last_refill = now) (hle : b.tokens ≤ b.rate) :
    TokenBucket.consume b now =
      if 1 ≤ b.tokens then (true, { b with tokens := b.tokens - 1 }) else (false, b) := by
  obtain ⟨rate, period, tokens, last⟩ := b
  simp only at h hle
  subst h
  simp only [TokenBucket.consume, sub_self, zero_mul, add_zero, min_eq_right hle, ge_iff_le]

/-- A consume never leaves a negative token count. -/
theorem consume_tokens_nonneg (b : TokenBucket) (now : ℚ)
    (h0 : 0 ≤ b.tokens) (hn : b.last_refill ≤ now) (hr : 0 ≤ b.rate) (hp : 0 < b.period) :
    0 ≤ ((TokenBucket.consume b now).2).tokens := by
  have he : 0 ≤ now - b.last_refill := sub_nonneg.2 hn
  have hrp : 0 ≤ b.rate / b.period := div_nonneg hr hp.le
  have hm : 0 ≤ min b.rate (b.tokens + (now - b.last_refill) * (b.rate / b.period)) :=
    le_min hr (add_nonneg h0 (mul_nonneg he hrp))
  simp only [TokenBucket.consume, ge_iff_le]
  split
  · next hge =>
      show 0 ≤ min b.rate (b.tokens + (now - b.last_refill) * (b.rate / b.period)) - 1
      linarith
  · next hge =>
      exact hm

/-- Running `n` consecutive consumes at a fixed instant with `n` tokens
available succeeds throughout and removes exactly `n` tokens. -/
theorem consumeRun_no_elapsed (now : ℚ) :
    ∀ (n : ℕ) (b : TokenBucket), b.last_refill = now → b.tokens ≤ b.rate →
      (n : ℚ) ≤ b.tokens →
      TokenBucket.consumeRun b now n = (true, { b with tokens := b.tokens - n }) := by
  intro n
  induction n with
  | zero => intro b h hle hn; simp [TokenBucket.consumeRun]
  | succ n ih =>
    intro b h hle hn
    have hcast : ((n : ℚ) + 1) ≤ b.tokens := by push_cast at hn; linarith
    have h1 : 1 ≤ b.tokens := by
      have : (0 : ℚ) ≤ n := by positivity
      linarith
    rw [TokenBucket.consumeRun]
    rw [consume_no_elapsed b now h hle, if_pos h1]
    rw [ih { b with tokens := b.tokens - 1 } h (by simp; linarith) (by simp; linarith)]
    simp only [Bool.true_and]
    congr 1
    push_cast
    ring_nf

/-- C3: `consume()` never drives the token count below zero, and starting
from a full bucket of capacity `rate`, `rate` consecutive consumes with no
elapsed time all succeed while the next one is denied. -/
theorem C3_bucket_never_negative_and_exhausts :
    (∀ (b : TokenBucket) (now : ℚ), 0 ≤ b.tokens → b.last_refill ≤ now →
      0 ≤ b.rate → 0 < b.period → 0 ≤ ((TokenBucket.consume b now).2).tokens) ∧
    (∀ (r : ℕ) (period now : ℚ),
      (TokenBucket.consumeRun (TokenBucket.init r period now) now r).1 = true ∧
      (TokenBucket.consume
        ((TokenBucket.consumeRun (TokenBucket.init r period now) now r).2) now).1 = false) := by
  refine ⟨consume_tokens_nonneg, fun r period now => ?_⟩
  have hrun := consumeRun_no_elapsed now r (TokenBucket.init r period now) rfl le_rfl le_rfl
  rw [hrun]
  refine ⟨rfl, ?_⟩
  have hle2 : ({ TokenBucket.init r period now with
      tokens := (TokenBucket.init r period now).tokens - (r : ℚ) } : TokenBucket).tokens ≤
      ({ TokenBucket.init r period now with
      tokens := (TokenBucket.init r period now).tokens - (r : ℚ) } : TokenBucket).rate := by
    simp [TokenBucket.init]
  rw [consume_no_elapsed _ now rfl hle2]
  split
  · next hcon =>
      exfalso
      simp only [TokenBucket.init, sub_self] at hcon
      exact absurd hcon (by norm_num)
  · rfl

/-- Witness for C3 at a concrete bucket and at capacity 3. -/
theorem C3_witness :
    (0 ≤ ((TokenBucket.consume ⟨5, 60, 2, 0⟩ 10).2).tokens) ∧
    (TokenBucket.consumeRun (TokenBucket.init 3 60 7) 7 3).1 = true ∧
    (TokenBucket.consume ((TokenBucket.consumeRun (TokenBucket.init 3 60 7) 7 3).2) 7).1 = false := by
  refine ⟨?_, ?_⟩
  · exact C3_bucket_never_negative_and_exhausts.1 ⟨5, 60, 2, 0⟩ 10 (by norm_num) (by norm_num)
      (by norm_num) (by norm_num)
  · exact C3_bucket_never_negative_and_exhausts.2 3 60 7

/-- C10: the trade-limit dependency consumes a request-class token first;
a call denied by the trade-class bucket does not restore it (with no
elapsed time the request bucket ends exactly one token lower), and a call
denied by the request-class bucket never touches the trade-class bucket. -/
theorem C10_trade_limit_consumes_request_token (s : LimiterState) (now : ℚ)
    (hnow : s.req_bucket.last_refill = now)
    (hcap : s.req_bucket.tokens ≤ s.req_bucket.rate) :
    (∀ s', require_trade_limit s now = (.requestLimited, s') →
      s'.trade_bucket = s.trade_bucket) ∧
    (∀ s', require_trade_limit s now = (.tradeLimited, s') →
      s'.req_bucket.tokens = s.req_bucket.tokens - 1) ∧
    (∀ s', require_trade_limit s now = (.allowed, s') →
      s'.req_bucket.tokens = s.req_bucket.tokens - 1) := by
  have hreq := consume_no_elapsed s.req_bucket now hnow hcap
  by_cases h1 : 1 ≤ s.req_bucket.tokens
  · by_cases h2 : (TokenBucket.consume s.trade_bucket now).1 = false
    · have heq : require_trade_limit s now =
          (.tradeLimited,
            { req_bucket := { s.req_bucket with tokens := s.req_bucket.tokens - 1 },
              trade_bucket := (TokenBucket.consume s.trade_bucket now).2 }) := by
        simp [require_trade_limit, hreq, if_pos h1, h2]
      refine ⟨fun s' hs => ?_, fun s' hs => ?_, fun s' hs => ?_⟩
      · rw [heq] at hs; simp at hs
      · rw [heq] at hs
        simp only [Prod.mk.injEq, true_and] at hs
        rw [← hs]
      · rw [heq] at hs; simp at hs
    · have heq : require_trade_limit s now =
          (.allowed,
            { req_bucket := { s.req_bucket with tokens := s.req_bucket.tokens - 1 },
              trade_bucket := (TokenBucket.consume s.trade_bucket now).2 }) := by
        simp [require_trade_limit, hreq, if_pos h1, h2]
      refine ⟨fun s' hs => ?_, fun s' hs => ?_, fun s' hs => ?_⟩
      · rw [heq] at hs; simp at hs
      · rw [heq] at hs; simp at hs
      · rw [heq] at hs
        simp only [Prod.mk.injEq, true_and] at hs
        rw [← hs]
  · have heq : require_trade_limit s now =
        (.requestLimited, { req_bucket := s.req_bucket, trade_bucket := s.trade_bucket }) := by
      simp [require_trade_limit, hreq, if_neg h1]
    refine ⟨fun s' hs => ?_, fun s' hs => ?_, fun s' hs => ?_⟩
    · rw [heq] at hs
      simp only [Prod.mk.injEq, true_and] at hs
      rw [← hs]
    · rw [heq] at hs; simp at hs
    · rw [heq] at hs; simp at hs

/-- Witness for C10: a caller with request tokens available but an empty
trade bucket is rejected by the trade class and still pays one request
token. -/
theorem C10_witness :
    ((require_trade_limit ⟨⟨10, 60, 10, 0⟩, ⟨5, 60, 1/2, 0⟩⟩ 0).2).req_bucket.tokens =
      10 - 1 := by
  have hout : require_trade_limit ⟨⟨10, 60, 10, 0⟩, ⟨5, 60, 1/2, 0⟩⟩ 0 =
      (LimitOutcome.tradeLimited,
        (require_trade_limit ⟨⟨10, 60, 10, 0⟩, ⟨5, 60, 1/2, 0⟩⟩ 0).2) := by
    norm_num [require_trade_limit, TokenBucket.consume]
  exact (C10_trade_limit_consumes_request_token ⟨⟨10, 60, 10, 0⟩, ⟨5, 60, 1/2, 0⟩⟩ 0 rfl
    (by norm_num)).2.1 _ hout

end Spredd

namespace Spredd

/-! Helper lemmas about the position upsert. -/

/-- Upsert on a missing row creates it with the given amount and entry
price, status open. -/
theorem upsert_create (db : PosKey → Option Position) (k : PosKey)
    (ta ep : ℚ) (cp : Option ℚ) (h : db k = none) :
    ∃ q, upsert_position db k ta ep cp k = some q ∧
      q.token_amount = ta ∧ q.avg_entry_price = ep ∧ q.status = .OPEN := by
  rcases cp with _ | c
  · refine ⟨⟨ta, ep, none, .OPEN⟩, ?_, rfl, rfl, rfl⟩
    simp [upsert_position, h]
  · refine ⟨⟨ta, ep, if c = 0 then none else some c, .OPEN⟩, ?_, rfl, rfl, rfl⟩
    simp [upsert_position, h]

/-- Upsert on an existing row with a positive new total stores the new
total and the volume-weighted average entry price. -/
theorem upsert_amount_avg (db : PosKey → Option Position) (k : PosKey)
    (ta ep : ℚ) (cp : Option ℚ) (pos : Position) (h : db k = some pos)
    (hpos : 0 < pos.token_amount + ta) :
    ∃ q, upsert_position db k ta ep cp k = some q ∧
      q.token_amount = pos.token_amount + ta ∧
      q.avg_entry_price =
        (pos.avg_entry_price * pos.token_amount + ep * ta) / (pos.token_amount + ta) ∧
      q.status = pos.status := by
  rcases cp with _ | c
  · refine ⟨⟨pos.token_amount + ta,
      (pos.avg_entry_price * pos.token_amount + ep * ta) / (pos.token_amount + ta),
      pos.current_price, pos.status⟩, ?_, rfl, rfl, rfl⟩
    simp [upsert_position, h, hpos]
  · refine ⟨⟨pos.token_amount + ta,
      (pos.avg_entry_price * pos.token_amount + ep * ta) / (pos.token_amount + ta),
      some c, pos.status⟩, ?_, rfl, rfl, rfl⟩
    simp [upsert_position, h, hpos]

/-- C2: on an upsert hitting an existing row, the new total is the old
amount plus the delta; a positive total stores the volume-weighted average
entry price and the total, while a zero-or-negative total clamps the
amount to zero and closes the position. -/
theorem C2_position_upsert_existing (db : PosKey → Option Position) (k : PosKey)
    (ta ep : ℚ) (cp : Option ℚ) (pos : Position) (h : db k = some pos) :
    (0 < pos.token_amount + ta →
      ∃ pos', upsert_position db k ta ep cp k = some pos' ∧
        pos'.token_amount = pos.token_amount + ta ∧
        pos'.avg_entry_price =
          (pos.avg_entry_price * pos.token_amount + ep * ta) / (pos.token_amount + ta)) ∧
    (pos.token_amount + ta ≤ 0 →
      ∃ pos', upsert_position db k ta ep cp k = some pos' ∧
        pos'.token_amount = 0 ∧ pos'.status = PositionStatus.CLOSED) := by
  constructor
  · intro hpos
    obtain ⟨q, hq, h1, h2, -⟩ := upsert_amount_avg db k ta ep cp pos h hpos
    exact ⟨q, hq, h1, h2⟩
  · intro hneg
    have hnp : ¬ 0 < pos.token_amount + ta := not_lt.2 hneg
    rcases cp with _ | c
    · refine ⟨⟨0, pos.avg_entry_price, pos.current_price, .CLOSED⟩, ?_, rfl, rfl⟩
      simp [upsert_position, h, hnp]
    · refine ⟨⟨0, pos.avg_entry_price, some c, .CLOSED⟩, ?_, rfl, rfl⟩
      simp [upsert_position, h, hnp]

/-- Witness for C2: adding 5 tokens at price 3/5 to a 10-token position
at average 1/2 yields 15 tokens at average 8/15; draining 10 tokens
closes the position at zero. -/
theorem C2_witness :
    ((upsert_position (fun _ => some ⟨10, 1/2, none, .OPEN⟩) ⟨"a", "w", "p", "m", "yes"⟩
        5 (3/5) none ⟨"a", "w", "p", "m", "yes"⟩).map Position.token_amount = some 15) ∧
    ((upsert_position (fun _ => some ⟨10, 1/2, none, .OPEN⟩) ⟨"a", "w", "p", "m", "yes"⟩
        5 (3/5) none ⟨"a", "w", "p", "m", "yes"⟩).map Position.avg_entry_price = some (8/15)) ∧
    ((upsert_position (fun _ => some ⟨10, 1/2, none, .OPEN⟩) ⟨"a", "w", "p", "m", "yes"⟩
        (-10) (3/5) none ⟨"a", "w", "p", "m", "yes"⟩).map Position.status =
      some PositionStatus.CLOSED) := by
  obtain ⟨hgrow, -⟩ := C2_position_upsert_existing
    (fun _ => some ⟨10, 1/2, none, .OPEN⟩) ⟨"a", "w", "p", "m", "yes"⟩ 5 (3/5) none
    ⟨10, 1/2, none, .OPEN⟩ rfl
  obtain ⟨p1, he1, ha1, hv1⟩ := hgrow (by norm_num)
  obtain ⟨-, hdrain⟩ := C2_position_upsert_existing
    (fun _ => some ⟨10, 1/2, none, .OPEN⟩) ⟨"a", "w", "p", "m", "yes"⟩ (-10) (3/5) none
    ⟨10, 1/2, none, .OPEN⟩ rfl
  obtain ⟨p2, he2, -, hs2⟩ := hdrain (by norm_num)
  refine ⟨?_, ?_, ?_⟩
  · rw [he1]
    simp only [Option.map_some', Option.some.injEq]
    rw [ha1]
    norm_num
  · rw [he1]
    simp only [Option.map_some', Option.some.injEq]
    rw [hv1]
    norm_num
  · rw [he2]
    simp only [Option.map_some', Option.some.injEq]
    exact hs2

/-- C8: two buy upserts on a fresh key commute: either order yields the
same final token amount and the same volume-weighted average entry
price (exactly, in the rational embedding). -/
theorem C8_buy_upserts_commute (db : PosKey → Option Position) (k : PosKey)
    (a1 p1 a2 p2 : ℚ) (c1 c2 : Option ℚ)
    (h : db k = none) (h1 : 0 < a1) (h2 : 0 < a2) :
    ∃ q1 q2,
      upsert_position (upsert_position db k a1 p1 c1) k a2 p2 c2 k = some q1 ∧
      upsert_position (upsert_position db k a2 p2 c2) k a1 p1 c1 k = some q2 ∧
      q1.token_amount = q2.token_amount ∧
      q1.avg_entry_price = q2.avg_entry_price := by
  obtain ⟨r1, hr1, hr1a, hr1p, -⟩ := upsert_create db k a1 p1 c1 h
  obtain ⟨r2, hr2, hr2a, hr2p, -⟩ := upsert_create db k a2 p2 c2 h
  obtain ⟨q1, hq1, hq1a, hq1p, -⟩ := upsert_amount_avg
    (upsert_position db k a1 p1 c1) k a2 p2 c2 r1 hr1 (by rw [hr1a]; linarith)
  obtain ⟨q2, hq2, hq2a, hq2p, -⟩ := upsert_amount_avg
    (upsert_position db k a2 p2 c2) k a1 p1 c1 r2 hr2 (by rw [hr2a]; linarith)
  refine ⟨q1, q2, hq1, hq2, ?_, ?_⟩
  · rw [hq1a, hq2a, hr1a, hr2a]
    ring_nf
  · rw [hq1p, hq2p, hr1a, hr2a, hr1p, hr2p]
    ring_nf

/-- Witness for C8: buys of 10 tokens at 2/5 and 30 tokens at 3/5 in
either order end at the same average entry price. -/
theorem C8_witness :
    (upsert_position (upsert_position (fun _ => none) ⟨"a", "w", "p", "m", "yes"⟩
        10 (2/5) none) ⟨"a", "w", "p", "m", "yes"⟩ 30 (3/5) none
        ⟨"a", "w", "p", "m", "yes"⟩).map Position.avg_entry_price =
      (upsert_position (upsert_position (fun _ => none) ⟨"a", "w", "p", "m", "yes"⟩
        30 (3/5) none) ⟨"a", "w", "p", "m", "yes"⟩ 10 (2/5) none
        ⟨"a", "w", "p", "m", "yes"⟩).map Position.avg_entry_price := by
  obtain ⟨q1, q2, he1, he2, -, hp⟩ := C8_buy_upserts_commute (fun _ => none)
    ⟨"a", "w", "p", "m", "yes"⟩ 10 (2/5) 30 (3/5) none none rfl (by norm_num) (by norm_num)
  rw [he1, he2]
  simp only [Option.map_some']
  rw [hp]

end Spredd

namespace Spredd

/-- C1: the execute endpoint persists the row at `SUBMITTED`/`EXECUTE`
before any adapter interaction; a failed re-quote moves the row to
`FAILED` (never leaves it `SUBMITTED`, never marks it `CONFIRMED`) before
the 400 is raised; when the quote and key steps pass, the row ends at
`CONFIRMED` exactly when the adapter result's success flag is true and at
`FAILED` otherwise. -/
theorem C1_execute_row_lifecycle (env : ExecEnv) :
    ((execute_trade_events env).head? = some (Evt.persistTrade .SUBMITTED .EXECUTE)) ∧
    (∀ e, env.quoteResult = .error e →
      execute_trade_events env =
        [Evt.persistTrade .SUBMITTED .EXECUTE, Evt.adapterQuote,
         Evt.updateStatus .FAILED, Evt.httpError 400] ∧
      rowStatus (execute_trade_events env) = some .FAILED) ∧
    (Evt.updateStatus .CONFIRMED ∈ execute_trade_events env →
      ∃ q, env.quoteResult = .ok q ∧ (env.execResult q).success = true) ∧
    (∀ q, env.quoteResult = .ok q → env.keyResult = .ok () →
      rowStatus (execute_trade_events env) =
        some (if (env.execResult q).success then TradeStatus.CONFIRMED
          else TradeStatus.FAILED)) := by
  cases hq : env.quoteResult with
  | error e =>
    refine ⟨by simp [execute_trade_events, hq], fun e' he' => ?_, fun hmem => ?_,
      fun q hq' => absurd hq' (by simp)⟩
    · exact ⟨by simp [execute_trade_events, hq], by simp [execute_trade_events, hq, rowStatus]⟩
    · simp [execute_trade_events, hq] at hmem
  | ok q =>
    cases hk : env.keyResult with
    | error ke =>
      refine ⟨by simp [execute_trade_events, hq, hk], fun e' he' => absurd he' (by simp),
        fun hmem => ?_, fun q' hq' hk' => absurd hk' (by simp)⟩
      simp [execute_trade_events, hq, hk] at hmem
    | ok u =>
      cases u
      cases hs : (env.execResult q).success with
      | true =>
        refine ⟨by simp [execute_trade_events, hq, hk], fun e' he' => absurd he' (by simp),
          fun hmem => ⟨q, rfl, hs⟩, fun q' hq' hk' => ?_⟩
        injection hq' with h
        subst h
        cases hb : env.side == "buy" <;>
          simp [execute_trade_events, hq, hk, hs, hb, rowStatus]
      | false =>
        refine ⟨by simp [execute_trade_events, hq, hk], fun e' he' => absurd he' (by simp),
          fun hmem => ?_, fun q' hq' hk' => ?_⟩
        · simp [execute_trade_events, hq, hk, hs, rowStatus] at hmem
        · injection hq' with h
          subst h
          simp [execute_trade_events, hq, hk, hs, rowStatus]

/-- Witness for C1: a failing re-quote leaves the row at `FAILED`. -/
theorem C1_witness :
    rowStatus (execute_trade_events
      ⟨"buy", .error "venue down", .ok (), fun _ => ⟨false, none, none, none⟩⟩) =
      some TradeStatus.FAILED :=
  ((C1_execute_row_lifecycle
    ⟨"buy", .error "venue down", .ok (), fun _ => ⟨false, none, none, none⟩⟩).2.1
    "venue down" rfl).2

/-- C9: after a successful buy execution the position upsert receives the
re-fetched quote's expected output as the token amount and the quote's
price per token as both entry and current price; in particular the
adapter-reported output amount is not what gets recorded whenever it
differs from the quoted expected output. -/
theorem C9_position_uses_quote_values (env : ExecEnv) (q : AdapterQuote)
    (hq : env.quoteResult = .ok q) (hk : env.keyResult = .ok ())
    (hs : (env.execResult q).success = true) (hb : env.side = "buy") :
    (Evt.posUpsert q.expected_output q.price_per_token q.price_per_token ∈
      execute_trade_events env) ∧
    (∀ ta ep cp, Evt.posUpsert ta ep cp ∈ execute_trade_events env →
      ta = q.expected_output ∧ ep = q.price_per_token ∧ cp = q.price_per_token) ∧
    (∀ v, (env.execResult q).output_amount = some v → v ≠ q.expected_output →
      ∀ ep cp, Evt.posUpsert v ep cp ∉ execute_trade_events env) := by
  have htr : execute_trade_events env =
      [Evt.persistTrade .SUBMITTED .EXECUTE, Evt.adapterQuote, Evt.keyConvert,
       Evt.adapterExecute, Evt.updateStatus .CONFIRMED,
       Evt.posUpsert q.expected_output q.price_per_token q.price_per_token,
       Evt.httpOk] := by
    simp [execute_trade_events, hq, hk, hs, hb]
  rw [htr]
  refine ⟨by simp, fun ta ep cp hmem => ?_, fun v hv hne ep cp hmem => ?_⟩
  · simpa using hmem
  · have h2 : v = q.expected_output ∧ ep = q.price_per_token ∧ cp = q.price_per_token := by
      simpa using hmem
    exact hne h2.1

/-- Witness for C9 at an execution whose adapter reports an output amount
of 7 against a quoted expected output of 5: the upsert records 5. -/
theorem C9_witness :
    (Evt.posUpsert 5 (1/2) (1/2) ∈ execute_trade_events
      ⟨"buy", .ok ⟨"buy", 10, 5, 1/2, none⟩, .ok (),
        fun _ => ⟨true, some "h", some 7, none⟩⟩) ∧
    (Evt.posUpsert 7 (1/2) (1/2) ∉ execute_trade_events
      ⟨"buy", .ok ⟨"buy", 10, 5, 1/2, none⟩, .ok (),
        fun _ => ⟨true, some "h", some 7, none⟩⟩) := by
  have h := C9_position_uses_quote_values
    ⟨"buy", .ok ⟨"buy", 10, 5, 1/2, none⟩, .ok (), fun _ => ⟨true, some "h", some 7, none⟩⟩
    ⟨"buy", 10, 5, 1/2, none⟩ rfl rfl rfl rfl
  exact ⟨h.1, h.2.2 7 rfl (by norm_num) (1/2) (1/2)⟩

/-- The pagination loop performs at most `fuel` page fetches beyond the
calls already counted. -/
theorem fetchLoop_calls_le (upstream : ℕ → Option String → Option FetchPage) :
    ∀ (fuel calls : ℕ) (cursor : Option String) (acc : List QMarket),
      (fetchLoop upstream fuel calls cursor acc).2 ≤ calls + fuel := by
  intro fuel
  induction fuel with
  | zero => intro calls cursor acc; simp [fetchLoop]
  | succ n ih =>
    intro calls cursor acc
    rw [fetchLoop]
    cases hup : upstream calls (cursorParam cursor) with
    | none =>
      show calls + 1 ≤ calls + (n + 1)
      omega
    | some page =>
      simp only
      split
      · show calls + 1 ≤ calls + (n + 1)
        omega
      · calc (fetchLoop upstream n (calls + 1) page.cursor
            (acc ++ page.markets.filterMap id)).2 ≤ (calls + 1) + n := ih _ _ _
          _ = calls + (n + 1) := by omega

/-- C5: a cache-miss re-fetch makes at most 25 page fetches whatever
cursors the upstream returns; a raised page fetch ends the loop at once
and yields the markets accumulated so far (no exception escapes, the
result type is total); a page whose only flaw is malformed records
contributes exactly its parseable records. -/
theorem C5_pagination_bounded (upstream : ℕ → Option String → Option FetchPage) :
    ((fetch_all_markets upstream).2 ≤ 25) ∧
    (∀ (fuel calls : ℕ) (cursor : Option String) (acc : List QMarket),
      upstream calls (cursorParam cursor) = none →
      fetchLoop upstream (fuel + 1) calls cursor acc = (acc, calls + 1)) ∧
    (∀ (fuel calls : ℕ) (cursor : Option String) (acc : List QMarket) (page : FetchPage),
      upstream calls (cursorParam cursor) = some page →
      cursorParam page.cursor = none →
      fetchLoop upstream (fuel + 1) calls cursor acc =
        (acc ++ page.markets.filterMap id, calls + 1)) := by
  refine ⟨fetchLoop_calls_le upstream 25 0 none [], ?_, ?_⟩
  · intro fuel calls cursor acc hup
    rw [fetchLoop, hup]
  · intro fuel calls cursor acc page hup hcur
    rw [fetchLoop, hup]
    simp [hcur]

/-- Witness for C5: an upstream whose very first page fetch raises yields
an empty market list after exactly one fetch, within the 25-fetch cap. -/
theorem C5_witness :
    (fetch_all_markets (fun _ _ => none) = ([], 1)) ∧
    ((fetch_all_markets (fun _ _ => none)).2 ≤ 25) := by
  refine ⟨?_, (C5_pagination_bounded (fun _ _ => none)).1⟩
  exact (C5_pagination_bounded (fun _ _ => none)).2.1 24 0 none [] rfl

end Spredd

namespace Spredd

/-- Python `or` keeps a present nonzero value. -/
theorem pyOr_some_ne (a x : ℚ) (h : a ≠ 0) : pyOr (some a) x = a := by
  simp [pyOr, h]

/-- Python `or` falls through on `None`. -/
theorem pyOr_none (x : ℚ) : pyOr none x = x := rfl

/-- Python `or` falls through on a zero value. -/
theorem pyOr_some_zero (x : ℚ) : pyOr (some 0) x = x := by
  simp [pyOr]

/-- Counterexample to C7 as stated: with bids `[(0, 5)]` (sorted) and asks
`[(0.62, 8)]` both best bid and best ask exist, yet `spread` is `None`
rather than `best_ask - best_bid`, because the property tests Python
truthiness and a zero best bid is falsy. -/
theorem C7_counterexample :
    List.Pairwise (fun p q => q.1 ≤ p.1) ([(0, 5)] : List (ℚ × ℚ)) ∧
    List.Pairwise (fun p q => p.1 ≤ q.1) ([(31/50, 8)] : List (ℚ × ℚ)) ∧
    OrderBook.best_bid ⟨"m", .yes, [(0, 5)], [(31/50, 8)]⟩ = some 0 ∧
    OrderBook.best_ask ⟨"m", .yes, [(0, 5)], [(31/50, 8)]⟩ = some (31/50) ∧
    OrderBook.spread ⟨"m", .yes, [(0, 5)], [(31/50, 8)]⟩ ≠ some (31/50 - 0) := by
  refine ⟨by simp, by simp, rfl, rfl, ?_⟩
  have h : OrderBook.spread ⟨"m", .yes, [(0, 5)], [(31/50, 8)]⟩ = none := by decide
  rw [h]
  simp

/-- C7 amended: on sorted books, `best_bid` is the maximum bid price and
absent exactly when there are no bids, `best_ask` is the minimum ask
price and absent exactly when there are no asks, and `spread` equals
`best_ask - best_bid` whenever both exist and are nonzero; the spec's
example book yields best bid 0.6, best ask 0.62, spread 0.02. -/
theorem C7_orderbook_derived_fields (ob : OrderBook)
    (hb : ob.bids.Pairwise (fun p q => q.1 ≤ p.1))
    (ha : ob.asks.Pairwise (fun p q => p.1 ≤ q.1)) :
    (OrderBook.best_bid ob = none ↔ ob.bids = []) ∧
    (∀ b, OrderBook.best_bid ob = some b →
      (∃ p ∈ ob.bids, p.1 = b) ∧ ∀ p ∈ ob.bids, p.1 ≤ b) ∧
    (OrderBook.best_ask ob = none ↔ ob.asks = []) ∧
    (∀ a, OrderBook.best_ask ob = some a →
      (∃ p ∈ ob.asks, p.1 = a) ∧ ∀ p ∈ ob.asks, a ≤ p.1) ∧
    (∀ b a, OrderBook.best_bid ob = some b → OrderBook.best_ask ob = some a →
      b ≠ 0 → a ≠ 0 → OrderBook.spread ob = some (a - b)) ∧
    (OrderBook.best_bid ⟨"m", .yes, [(3/5, 10), (11/20, 5)], [(31/50, 8)]⟩ = some (3/5) ∧
     OrderBook.best_ask ⟨"m", .yes, [(3/5, 10), (11/20, 5)], [(31/50, 8)]⟩ = some (31/50) ∧
     OrderBook.spread ⟨"m", .yes, [(3/5, 10), (11/20, 5)], [(31/50, 8)]⟩ = some (1/50)) := by
  refine ⟨?_, ?_, ?_, ?_, ?_, rfl, rfl, ?_⟩
  · cases hl : ob.bids <;> simp [OrderBook.best_bid, hl]
  · intro b hbb
    rw [OrderBook.best_bid] at hbb
    cases hl : ob.bids with
    | nil => rw [hl] at hbb; simp at hbb
    | cons p t =>
      rw [hl] at hbb hb
      simp only [List.head?_cons, Option.map_some', Option.some.injEq] at hbb
      subst hbb
      refine ⟨⟨p, by simp, rfl⟩, ?_⟩
      intro r hr
      rcases List.mem_cons.1 hr with rfl | hr
      · exact le_refl _
      · exact (List.pairwise_cons.1 hb).1 r hr
  · cases hl : ob.asks <;> simp [OrderBook.best_ask, hl]
  · intro a haa
    rw [OrderBook.best_ask] at haa
    cases hl : ob.asks with
    | nil => rw [hl] at haa; simp at haa
    | cons p t =>
      rw [hl] at haa ha
      simp only [List.head?_cons, Option.map_some', Option.some.injEq] at haa
      subst haa
      refine ⟨⟨p, by simp, rfl⟩, ?_⟩
      intro r hr
      rcases List.mem_cons.1 hr with rfl | hr
      · exact le_refl _
      · exact (List.pairwise_cons.1 ha).1 r hr
  · intro b a hbb haa hb0 ha0
    simp [OrderBook.spread, hbb, haa, truthyQ, hb0, ha0]
  · simp [OrderBook.spread, OrderBook.best_bid, OrderBook.best_ask, truthyQ]
    norm_num

/-- Witness for C7 at the spec's example book. -/
theorem C7_witness :
    OrderBook.spread ⟨"m", .yes, [(3/5, 10), (11/20, 5)], [(31/50, 8)]⟩ =
      some (31/50 - 3/5) := by
  have h := C7_orderbook_derived_fields ⟨"m", .yes, [(3/5, 10), (11/20, 5)], [(31/50, 8)]⟩
    (by simp; norm_num) (by simp)
  exact h.2.2.2.2.1 (3/5) (31/50) rfl rfl (by norm_num) (by norm_num)

/-- Counterexample to C4 as stated: a zero best ask is present in the
book, yet the buy price falls through to the market's stored price
(0.3), because the fallback chain is Python `or` and a zero Decimal is
falsy. -/
theorem C4_counterexample :
    OrderBook.best_ask ⟨"m", .yes, [], [(0, 5)]⟩ = some 0 ∧
    (get_quote ⟨some ⟨some (3/10), some (7/10)⟩, ⟨"m", .yes, [], [(0, 5)]⟩⟩
        .yes "buy" 1).map AdapterQuote.price_per_token = .ok (3/10) ∧
    (3/10 : ℚ) ≠ 0 := by
  refine ⟨rfl, ?_, by norm_num⟩
  norm_num [get_quote, pyOr, OrderBook.best_ask, OrderBook.best_bid, OrderBook.spread,
    truthyQ, Except.map]

/-- C4 amended: for the order-book-priced adapters, when the market
exists the buy price is the best ask when present and nonzero, else the
market's stored price for the requested outcome when present and nonzero,
else 0.5, with expected output `amount / price`; the sell price is the
best bid through the same chain, with expected output `amount * price`. -/
theorem C4_quote_price_chain (env : QuoteEnv) (m : QMarket) (outcome : Outcome)
    (amount : ℚ) (mp : Option ℚ) (hm : env.market = some m)
    (hmp : (match outcome with
      | Outcome.yes => m.yes_price
      | Outcome.no => m.no_price) = mp) :
    (∀ a, OrderBook.best_ask env.ob = some a → 0 < a →
      (get_quote env outcome "buy" amount).map AdapterQuote.price_per_token = .ok a ∧
      (get_quote env outcome "buy" amount).map AdapterQuote.expected_output =
        .ok (amount / a)) ∧
    ((OrderBook.best_ask env.ob = none ∨ OrderBook.best_ask env.ob = some 0) →
      ∀ p, mp = some p → 0 < p →
      (get_quote env outcome "buy" amount).map AdapterQuote.price_per_token = .ok p ∧
      (get_quote env outcome "buy" amount).map AdapterQuote.expected_output =
        .ok (amount / p)) ∧
    ((OrderBook.best_ask env.ob = none ∨ OrderBook.best_ask env.ob = some 0) →
      (mp = none ∨ mp = some 0) →
      (get_quote env outcome "buy" amount).map AdapterQuote.price_per_token = .ok (1/2) ∧
      (get_quote env outcome "buy" amount).map AdapterQuote.expected_output =
        .ok (amount / (1/2))) ∧
    (∀ b, OrderBook.best_bid env.ob = some b → b ≠ 0 →
      (get_quote env outcome "sell" amount).map AdapterQuote.price_per_token = .ok b ∧
      (get_quote env outcome "sell" amount).map AdapterQuote.expected_output =
        .ok (amount * b)) ∧
    ((OrderBook.best_bid env.ob = none ∨ OrderBook.best_bid env.ob = some 0) →
      ∀ p, mp = some p → p ≠ 0 →
      (get_quote env outcome "sell" amount).map AdapterQuote.price_per_token = .ok p ∧
      (get_quote env outcome "sell" amount).map AdapterQuote.expected_output =
        .ok (amount * p)) ∧
    ((OrderBook.best_bid env.ob = none ∨ OrderBook.best_bid env.ob = some 0) →
      (mp = none ∨ mp = some 0) →
      (get_quote env outcome "sell" amount).map AdapterQuote.price_per_token = .ok (1/2) ∧
      (get_quote env outcome "sell" amount).map AdapterQuote.expected_output =
        .ok (amount * (1/2))) := by
  have hbuy : get_quote env outcome "buy" amount =
      .ok { side := "buy", input_amount := amount,
            expected_output :=
              if pyOr (OrderBook.best_ask env.ob) (pyOr mp (1/2)) > 0 then
                amount / pyOr (OrderBook.best_ask env.ob) (pyOr mp (1/2))
              else 0,
            price_per_token := pyOr (OrderBook.best_ask env.ob) (pyOr mp (1/2)),
            price_impact := OrderBook.spread env.ob } := by
    rw [get_quote, hm]
    simp only [hmp]
    simp
  have hsell : get_quote env outcome "sell" amount =
      .ok { side := "sell", input_amount := amount,
            expected_output := amount * pyOr (OrderBook.best_bid env.ob) (pyOr mp (1/2)),
            price_per_token := pyOr (OrderBook.best_bid env.ob) (pyOr mp (1/2)),
            price_impact := OrderBook.spread env.ob } := by
    rw [get_quote, hm]
    simp only [hmp]
    simp
  refine ⟨?_, ?_, ?_, ?_, ?_, ?_⟩
  · intro a haa hpos
    rw [hbuy, haa]
    simp only [Except.map, pyOr_some_ne _ _ (ne_of_gt hpos)]
    exact ⟨by trivial, by rw [if_pos hpos]⟩
  · intro hask p hp hpos
    have hchain : pyOr (OrderBook.best_ask env.ob) (pyOr mp (1/2)) = p := by
      rcases hask with h | h
      · rw [h, hp, pyOr_none, pyOr_some_ne _ _ (ne_of_gt hpos)]
      · rw [h, hp, pyOr_some_zero, pyOr_some_ne _ _ (ne_of_gt hpos)]
    rw [hbuy]
    simp only [Except.map, hchain]
    exact ⟨by trivial, by rw [if_pos hpos]⟩
  · intro hask hmp0
    have hchain : pyOr (OrderBook.best_ask env.ob) (pyOr mp (1/2)) = 1/2 := by
      have hmid : pyOr mp (1/2) = 1/2 := by
        rcases hmp0 with h2 | h2
        · rw [h2, pyOr_none]
        · rw [h2, pyOr_some_zero]
      rcases hask with h | h
      · rw [h, pyOr_none, hmid]
      · rw [h, pyOr_some_zero, hmid]
    rw [hbuy]
    simp only [Except.map, hchain]
    exact ⟨by trivial, by rw [if_pos (by norm_num : (0:ℚ) < 1/2)]⟩
  · intro b hbb hb0
    rw [hsell, hbb]
    simp only [Except.map, pyOr_some_ne _ _ hb0]
    exact ⟨by trivial, by trivial⟩
  · intro hbid p hp hp0
    have hchain : pyOr (OrderBook.best_bid env.ob) (pyOr mp (1/2)) = p := by
      rcases hbid with h | h
      · rw [h, hp, pyOr_none, pyOr_some_ne _ _ hp0]
      · rw [h, hp, pyOr_some_zero, pyOr_some_ne _ _ hp0]
    rw [hsell]
    simp only [Except.map, hchain]
    exact ⟨by trivial, by trivial⟩
  · intro hbid hmp0
    have hchain : pyOr (OrderBook.best_bid env.ob) (pyOr mp (1/2)) = 1/2 := by
      have hmid : pyOr mp (1/2) = 1/2 := by
        rcases hmp0 with h2 | h2
        · rw [h2, pyOr_none]
        · rw [h2, pyOr_some_zero]
      rcases hbid with h | h
      · rw [h, pyOr_none, hmid]
      · rw [h, pyOr_some_zero, hmid]
    rw [hsell]
    simp only [Except.map, hchain]
    exact ⟨by trivial, by trivial⟩

/-- Witness for C4: a live best ask of 3/5 prices a 2-unit buy at 3/5
with expected output 10/3. -/
theorem C4_witness :
    (get_quote ⟨some ⟨some (3/10), some (7/10)⟩, ⟨"m", .yes, [(2/5, 4)], [(3/5, 8)]⟩⟩
        .yes "buy" 2).map AdapterQuote.price_per_token = .ok (3/5) ∧
    (get_quote ⟨some ⟨some (3/10), some (7/10)⟩, ⟨"m", .yes, [(2/5, 4)], [(3/5, 8)]⟩⟩
        .yes "buy" 2).map AdapterQuote.expected_output = .ok (10/3) := by
  have h := (C4_quote_price_chain
    ⟨some ⟨some (3/10), some (7/10)⟩, ⟨"m", .yes, [(2/5, 4)], [(3/5, 8)]⟩⟩
    ⟨some (3/10), some (7/10)⟩ .yes 2 (some (3/10)) rfl rfl).1 (3/5) rfl (by norm_num)
  refine ⟨h.1, ?_⟩
  rw [h.2]
  simp only [Except.ok.injEq]
  norm_num

end Spredd

namespace Spredd

/-! Helper lemmas about the arbitrage grouping pass. -/

/-- Truthiness characterization for optional prices. -/
theorem truthyQ_eq_true (op : Option ℚ) :
    truthyQ op = true ↔ ∃ p, op = some p ∧ p ≠ 0 := by
  cases op <;> simp [truthyQ]

/-- Group lookup walks past an entry with a different key. -/
theorem groupList_cons_ne (k' : String) (l : List AMarket)
    (rest : List (String × List AMarket)) (k : String) (h : (k' == k) = false) :
    groupList ((k', l) :: rest) k = groupList rest k := by
  simp [groupList, List.find?_cons, h]

/-- Group lookup stops at an entry with the matching key. -/
theorem groupList_cons_eq (k : String) (l : List AMarket)
    (rest : List (String × List AMarket)) :
    groupList ((k, l) :: rest) k = l := by
  simp [groupList, List.find?_cons]

/-- Appending under a key extends exactly that key's group. -/
theorem groupList_addMarket_self (gs : List (String × List AMarket)) (k : String)
    (m : AMarket) : groupList (addMarket gs k m) k = groupList gs k ++ [m] := by
  induction gs with
  | nil =>
    rw [addMarket, groupList_cons_eq]
    simp [groupList, List.find?]
  | cons g rest ih =>
    obtain ⟨k', l⟩ := g
    by_cases hk : k' = k
    · subst hk
      rw [addMarket, if_pos rfl, groupList_cons_eq, groupList_cons_eq]
    · have hbeq : (k' == k) = false := by simp [hk]
      rw [addMarket, if_neg hk, groupList_cons_ne _ _ _ _ hbeq,
        groupList_cons_ne _ _ _ _ hbeq]
      exact ih

/-- Appending under a different key leaves a group unchanged. -/
theorem groupList_addMarket_other (gs : List (String × List AMarket)) (k k2 : String)
    (m : AMarket) (hne : k ≠ k2) :
    groupList (addMarket gs k2 m) k = groupList gs k := by
  have hbeq2 : (k2 == k) = false := by simp [Ne.symm hne]
  induction gs with
  | nil =>
    rw [addMarket, groupList_cons_ne _ _ _ _ hbeq2]
  | cons g rest ih =>
    obtain ⟨k', l⟩ := g
    by_cases hk : k' = k2
    · subst hk
      rw [addMarket, if_pos rfl, groupList_cons_ne _ _ _ _ hbeq2,
        groupList_cons_ne _ _ _ _ hbeq2]
    · rw [addMarket, if_neg hk]
      cases hbeq : (k' == k) with
      | true =>
        have hkk : k' = k := by simpa using hbeq
        subst hkk
        rw [groupList_cons_eq, groupList_cons_eq]
      | false =>
        rw [groupList_cons_ne _ _ _ _ hbeq, groupList_cons_ne _ _ _ _ hbeq]
        exact ih

/-- The grouping pass appends to each key's group exactly the scanned
markets carrying that normalized title, in order. -/
theorem groupList_collectAux :
    ∀ (ms : List AMarket) (gs : List (String × List AMarket)) (k : String),
      groupList (collectAux gs ms) k =
        groupList gs k ++ ms.filter (fun m => scanned m && (normKey m.title == k)) := by
  intro ms
  induction ms with
  | nil => intro gs k; simp [collectAux]
  | cons m rest ih =>
    intro gs k
    rw [collectAux]
    cases hsc : scanned m with
    | false =>
      rw [if_neg (by simp [hsc])]
      rw [ih]
      congr 1
      rw [List.filter_cons]
      simp [hsc]
    | true =>
      rw [if_pos rfl]
      rw [ih]
      by_cases hk : normKey m.title = k
      · subst hk
        rw [groupList_addMarket_self]
        rw [List.filter_cons]
        simp only [hsc, Bool.true_and, beq_self_eq_true, if_pos]
        simp
      · rw [groupList_addMarket_other gs k (normKey m.title) m (Ne.symm hk)]
        rw [List.filter_cons]
        have hdrop : (scanned m && (normKey m.title == k)) = false := by simp [hk]
        rw [hdrop]
        simp

/-- The groups of a full scan hold exactly the filtered input markets. -/
theorem groupList_collect (ms : List AMarket) (k : String) :
    groupList (collect ms) k =
      ms.filter (fun m => scanned m && (normKey m.title == k)) := by
  rw [collect, groupList_collectAux]
  simp [groupList, List.find?]

/-- A nonempty group is an entry of the grouping dict. -/
theorem groupList_mem (gs : List (String × List AMarket)) (k : String)
    (h : groupList gs k ≠ []) : (k, groupList gs k) ∈ gs := by
  cases hf : gs.find? (fun g => g.1 == k) with
  | none =>
    exfalso
    apply h
    rw [groupList, hf]
  | some g =>
    have hmem := List.mem_of_find?_eq_some hf
    have hkey := List.find?_some hf
    simp only [beq_iff_eq] at hkey
    have hg : groupList gs k = g.2 := by rw [groupList, hf]
    rw [hg]
    obtain ⟨g1, g2⟩ := g
    simp only at hkey
    subst hkey
    exact hmem

/-- Both components of an enumerated pair belong to the list. -/
theorem pairsFrom_sub :
    ∀ (l : List AMarket) (a b : AMarket), (a, b) ∈ pairsFrom l → a ∈ l ∧ b ∈ l := by
  intro l
  induction l with
  | nil => intro a b h; simp [pairsFrom] at h
  | cons x t ih =>
    intro a b h
    rw [pairsFrom] at h
    rcases List.mem_append.1 h with h | h
    · obtain ⟨m2, hm2, heq⟩ := List.mem_map.1 h
      injection heq with h1 h2
      subst h1
      subst h2
      exact ⟨List.mem_cons_self _ _, List.mem_cons_of_mem _ hm2⟩
    · obtain ⟨ha, hb⟩ := ih a b h
      exact ⟨List.mem_cons_of_mem _ ha, List.mem_cons_of_mem _ hb⟩

/-- Two distinct members of a list occur as an enumerated pair in one of
the two orders. -/
theorem mem_pairsFrom :
    ∀ (l : List AMarket) (a b : AMarket), a ≠ b → a ∈ l → b ∈ l →
      (a, b) ∈ pairsFrom l ∨ (b, a) ∈ pairsFrom l := by
  intro l
  induction l with
  | nil => intro a b hne ha; simp at ha
  | cons x t ih =>
    intro a b hne ha hb
    rcases List.mem_cons.1 ha with rfl | ha'
    · have hb' : b ∈ t := by
        rcases List.mem_cons.1 hb with rfl | hb'
        · exact absurd rfl hne
        · exact hb'
      left
      rw [pairsFrom]
      exact List.mem_append.2 (Or.inl (List.mem_map.2 ⟨b, hb', rfl⟩))
    · rcases List.mem_cons.1 hb with rfl | hb'
      · right
        rw [pairsFrom]
        exact List.mem_append.2 (Or.inl (List.mem_map.2 ⟨a, ha', rfl⟩))
      · rcases ih a b hne ha' hb' with h | h
        · left
          rw [pairsFrom]
          exact List.mem_append.2 (Or.inr h)
        · right
          rw [pairsFrom]
          exact List.mem_append.2 (Or.inr h)

/-- A list holding two distinct members has length at least two. -/
theorem two_le_length_of_two_mem (l : List AMarket) (a b : AMarket)
    (hne : a ≠ b) (ha : a ∈ l) (hb : b ∈ l) : 2 ≤ l.length := by
  cases l with
  | nil => simp at ha
  | cons x t =>
    cases t with
    | nil =>
      simp only [List.mem_singleton] at ha hb
      exact absurd (ha.trans hb.symm) hne
    | cons y u =>
      show 2 ≤ u.length + 1 + 1
      omega

end Spredd

namespace Spredd

/-- Evaluation of the pair body on a qualifying cross-venue pair. -/
theorem mkOpp_eq_some (min_spread : ℚ) (m1 m2 : AMarket) (p1 p2 : ℚ)
    (hplat : m1.platform ≠ m2.platform)
    (hp1 : m1.yes_price = some p1) (hz1 : p1 ≠ 0)
    (hp2 : m2.yes_price = some p2) (hz2 : p2 ≠ 0)
    (hsp : min_spread ≤ |p1 - p2|) :
    mkOpp min_spread m1 m2 = some
      { market_title := m1.title, outcome := "YES",
        buy_platform := (if p1 < p2 then m1 else m2).platform,
        buy_price := min p1 p2,
        sell_platform := (if p1 < p2 then m2 else m1).platform,
        sell_price := max p1 p2,
        spread := roundTo 4 |p1 - p2|,
        spread_pct := if (p1 + p2) / 2 > 0 then
          roundTo 2 (|p1 - p2| / ((p1 + p2) / 2) * 100) else 0 } := by
  have ht1 : truthyQ m1.yes_price = true := by rw [hp1]; simp [truthyQ, hz1]
  have ht2 : truthyQ m2.yes_price = true := by rw [hp2]; simp [truthyQ, hz2]
  have habs : (if p1 < p2 then p2 - p1 else p1 - p2) = |p1 - p2| := by
    by_cases h : p1 < p2
    · rw [if_pos h, abs_sub_comm, abs_of_pos (by linarith)]
    · rw [if_neg h, abs_of_nonneg (by linarith [not_lt.1 h])]
  have hbuyp : (if p1 < p2 then m1 else m2).yes_price.getD 0 = min p1 p2 := by
    by_cases h : p1 < p2
    · rw [if_pos h, hp1, Option.getD_some]
      exact (min_eq_left h.le).symm
    · rw [if_neg h, hp2, Option.getD_some]
      exact (min_eq_right (not_lt.1 h)).symm
  have hsellp : (if p1 < p2 then m2 else m1).yes_price.getD 0 = max p1 p2 := by
    by_cases h : p1 < p2
    · rw [if_pos h, hp2, Option.getD_some]
      exact (max_eq_right h.le).symm
    · rw [if_neg h, hp1, Option.getD_some]
      exact (max_eq_left (not_lt.1 h)).symm
  rw [mkOpp, if_neg hplat, if_neg (by simp [ht1, ht2])]
  simp only [hp1, hp2, Option.getD_some] at hbuyp hsellp ⊢
  rw [habs, hbuyp, hsellp, if_pos hsp]

/-- Inversion of the pair body: a reported opportunity comes from a
cross-venue pair with truthy prices and a spread above the threshold,
and its fields are determined by the two prices. -/
theorem mkOpp_some_inv (min_spread : ℚ) (m1 m2 : AMarket) (o : Opp)
    (h : mkOpp min_spread m1 m2 = some o) :
    m1.platform ≠ m2.platform ∧
    ∃ p1 p2, m1.yes_price = some p1 ∧ p1 ≠ 0 ∧ m2.yes_price = some p2 ∧ p2 ≠ 0 ∧
      min_spread ≤ |p1 - p2| ∧
      o.spread = roundTo 4 |p1 - p2| ∧
      o.spread_pct = (if (p1 + p2) / 2 > 0 then
        roundTo 2 (|p1 - p2| / ((p1 + p2) / 2) * 100) else 0) ∧
      o.buy_price = min p1 p2 ∧ o.sell_price = max p1 p2 := by
  by_cases hplat : m1.platform = m2.platform
  · rw [mkOpp, if_pos hplat] at h
    cases h
  by_cases htr : truthyQ m1.yes_price = false ∨ truthyQ m2.yes_price = false
  · rw [mkOpp, if_neg hplat, if_pos htr] at h
    cases h
  push_neg at htr
  have ht1 : truthyQ m1.yes_price = true := by
    cases hv : truthyQ m1.yes_price
    · exact absurd hv htr.1
    · rfl
  have ht2 : truthyQ m2.yes_price = true := by
    cases hv : truthyQ m2.yes_price
    · exact absurd hv htr.2
    · rfl
  obtain ⟨p1, hp1, hz1⟩ := (truthyQ_eq_true _).1 ht1
  obtain ⟨p2, hp2, hz2⟩ := (truthyQ_eq_true _).1 ht2
  by_cases hsp : min_spread ≤ |p1 - p2|
  · rw [mkOpp_eq_some min_spread m1 m2 p1 p2 hplat hp1 hz1 hp2 hz2 hsp] at h
    injection h with h
    subst h
    exact ⟨hplat, p1, p2, hp1, hz1, hp2, hz2, hsp, rfl, rfl, rfl, rfl⟩
  · exfalso
    have habs : (if p1 < p2 then p2 - p1 else p1 - p2) = |p1 - p2| := by
      by_cases hlt : p1 < p2
      · rw [if_pos hlt, abs_sub_comm, abs_of_pos (by linarith)]
      · rw [if_neg hlt, abs_of_nonneg (by linarith [not_lt.1 hlt])]
    rw [mkOpp, if_neg hplat, if_neg (by simp [ht1, ht2])] at h
    simp only [hp1, hp2, Option.getD_some] at h
    rw [habs, if_neg hsp] at h
    cases h

/-- Invariant of `addMarket`: every stored market satisfies the carried
predicate and its normalized title matches its group key. -/
theorem addMarket_entry (P : AMarket → Prop) :
    ∀ (gs : List (String × List AMarket)) (key : String) (m0 : AMarket),
      (∀ g ∈ gs, ∀ m ∈ g.2, P m ∧ normKey m.title = g.1) →
      P m0 → normKey m0.title = key →
      ∀ g ∈ addMarket gs key m0, ∀ m ∈ g.2, P m ∧ normKey m.title = g.1 := by
  intro gs
  induction gs with
  | nil =>
    intro key m0 hinv hP hkey g hg m hm
    rw [addMarket] at hg
    simp only [List.mem_singleton] at hg
    subst hg
    simp only [List.mem_singleton] at hm
    subst hm
    exact ⟨hP, hkey⟩
  | cons g0 rest ih =>
    intro key m0 hinv hP hkey g hg m hm
    obtain ⟨k', l⟩ := g0
    rw [addMarket] at hg
    by_cases hk : k' = key
    · rw [if_pos hk] at hg
      rcases List.mem_cons.1 hg with rfl | hg'
      · rcases List.mem_append.1 hm with hm' | hm'
        · exact hinv (k', l) (List.mem_cons_self _ _) m hm'
        · simp only [List.mem_singleton] at hm'
          subst hm'
          exact ⟨hP, by rw [hkey, hk]⟩
      · exact hinv g (List.mem_cons_of_mem _ hg') m hm
    · rw [if_neg hk] at hg
      rcases List.mem_cons.1 hg with rfl | hg'
      · exact hinv (k', l) (List.mem_cons_self _ _) m hm
      · exact ih key m0 (fun g' hg'' m' hm' =>
          hinv g' (List.mem_cons_of_mem _ hg'') m' hm') hP hkey g hg' m hm

/-- Invariant of the grouping pass. -/
theorem collectAux_entry (P : AMarket → Prop) :
    ∀ (ms : List AMarket) (gs : List (String × List AMarket)),
      (∀ g ∈ gs, ∀ m ∈ g.2, P m ∧ normKey m.title = g.1) →
      (∀ m ∈ ms, scanned m = true → P m) →
      ∀ g ∈ collectAux gs ms, ∀ m ∈ g.2, P m ∧ normKey m.title = g.1 := by
  intro ms
  induction ms with
  | nil =>
    intro gs hinv hms g hg m hm
    exact hinv g (by rwa [collectAux] at hg) m hm
  | cons m0 rest ih =>
    intro gs hinv hms
    rw [collectAux]
    cases hsc : scanned m0 with
    | false =>
      rw [if_neg (by simp [hsc])]
      exact ih gs hinv (fun m hm hs => hms m (List.mem_cons_of_mem _ hm) hs)
    | true =>
      rw [if_pos rfl]
      refine ih (addMarket gs (normKey m0.title) m0) ?_
        (fun m hm hs => hms m (List.mem_cons_of_mem _ hm) hs)
      exact addMarket_entry P gs (normKey m0.title) m0 hinv
        (hms m0 (List.mem_cons_self _ _) hsc) rfl

/-- Every market stored in a scan group came from the input, passed the
filter, and carries the group's normalized title. -/
theorem collect_entry (ms : List AMarket) (g : String × List AMarket)
    (hg : g ∈ collect ms) (m : AMarket) (hm : m ∈ g.2) :
    m ∈ ms ∧ scanned m = true ∧ normKey m.title = g.1 := by
  have h := collectAux_entry (fun m => m ∈ ms ∧ scanned m = true) ms []
    (by simp) (fun m hm hs => ⟨hm, hs⟩) g hg m hm
  exact ⟨h.1.1, h.1.2, h.2⟩

end Spredd

namespace Spredd

/-- Counterexample to C6 as stated: markets priced 0.1 and 0.223456 on
different venues under one title produce a reported spread of 0.1235 —
`round(spread, 4)` — which differs from the exact |price_a − price_b| =
0.123456; the reported spread is the rounded value, not the difference
itself. -/
theorem C6_counterexample :
    (opportunities [⟨"p1", "t", some (1/10), true⟩, ⟨"p2", "t", some (6983/31250), true⟩]
      (1/50)).map Opp.spread = [247/2000] ∧
    (247/2000 : ℚ) ≠ |(1/10 : ℚ) - 6983/31250| := by
  constructor
  · have hk : normKey "t" = "t" := by decide
    have hm : mkOpp (50 : ℚ)⁻¹ ⟨"p1", "t", some ((10 : ℚ)⁻¹), true⟩
        ⟨"p2", "t", some (6983/31250), true⟩ =
        some ⟨"t", "YES", "p1", (10 : ℚ)⁻¹, "p2", 6983/31250, 247/2000, 3817/50⟩ := by
      norm_num [mkOpp, truthyQ, roundTo, rhe]
      intro h
      exact absurd h (by decide)
    simp [opportunities, collect, collectAux, scanned, addMarket, hk, pairsFrom, hm, truthyQ]
  · have habs : |(1/10 : ℚ) - 6983/31250| = 1929/15625 := by
      rw [abs_of_neg (by norm_num)]
      norm_num
    rw [habs]
    norm_num

/-- C6 amended: over the collected active markets with truthy yes-prices,
every cross-venue pair sharing a normalized title whose price gap reaches
`min_spread` is reported (pre-truncation) with spread `round(|pa−pb|, 4)`
and spread_pct `round(|pa−pb| / ((pa+pb)/2) * 100, 2)` (zero under the
code's non-positive-average guard), buy/sell assigned to the lower/higher
price; conversely every reported opportunity arises from such a pair and
carries those same spread and spread_pct values; the returned list is
sorted by the reported spread descending and truncated to `limit`; and
the spec's example (0.40 vs 0.55 at min_spread 0.05) reports spread 0.15,
buy at venue A, sell at venue B, spread_pct 31.58. -/
theorem C6_arbitrage_scan (ms : List AMarket) (min_spread : ℚ) (limit : ℕ) :
    (∀ m1 m2 p1 p2, m1 ∈ ms → m2 ∈ ms →
      m1.is_active = true → m2.is_active = true →
      m1.yes_price = some p1 → p1 ≠ 0 → m2.yes_price = some p2 → p2 ≠ 0 →
      normKey m1.title = normKey m2.title → m1.platform ≠ m2.platform →
      min_spread ≤ |p1 - p2| →
      ∃ o ∈ opportunities ms min_spread,
        o.spread = roundTo 4 |p1 - p2| ∧
        o.spread_pct = (if (p1 + p2) / 2 > 0 then
          roundTo 2 (|p1 - p2| / ((p1 + p2) / 2) * 100) else 0) ∧
        (0 < p1 + p2 → o.spread_pct = roundTo 2 (|p1 - p2| / ((p1 + p2) / 2) * 100)) ∧
        o.buy_price = min p1 p2 ∧ o.sell_price = max p1 p2 ∧
        (p1 < p2 → o.buy_platform = m1.platform ∧ o.sell_platform = m2.platform) ∧
        (p2 < p1 → o.buy_platform = m2.platform ∧ o.sell_platform = m1.platform)) ∧
    (∀ o ∈ opportunities ms min_spread,
      ∃ m1 m2 p1 p2, m1 ∈ ms ∧ m2 ∈ ms ∧ scanned m1 = true ∧ scanned m2 = true ∧
        m1.yes_price = some p1 ∧ m2.yes_price = some p2 ∧
        normKey m1.title = normKey m2.title ∧ m1.platform ≠ m2.platform ∧
        min_spread ≤ |p1 - p2| ∧
        o.spread = roundTo 4 |p1 - p2| ∧
        o.spread_pct = (if (p1 + p2) / 2 > 0 then
          roundTo 2 (|p1 - p2| / ((p1 + p2) / 2) * 100) else 0) ∧
        (0 < p1 + p2 → o.spread_pct = roundTo 2 (|p1 - p2| / ((p1 + p2) / 2) * 100)) ∧
        o.buy_price = min p1 p2 ∧ o.sell_price = max p1 p2) ∧
    (scan ms min_spread limit).Sorted spreadGE ∧
    ((scan ms min_spread limit).length ≤ limit) ∧
    (∀ o ∈ scan ms min_spread limit, o ∈ opportunities ms min_spread) ∧
    (scan [⟨"venueA", "g", some (2/5), true⟩, ⟨"venueB", "g", some (11/20), true⟩]
        (1/20) 20 =
      [⟨"g", "YES", "venueA", 2/5, "venueB", 11/20, 3/20, 1579/50⟩]) := by
  refine ⟨?_, ?_, ?_, ?_, ?_, ?_⟩
  · intro m1 m2 p1 p2 hm1 hm2 ha1 ha2 hp1 hz1 hp2 hz2 hkey hplat hsp
    have hsc1 : scanned m1 = true := by simp [scanned, truthyQ, hp1, hz1, ha1]
    have hsc2 : scanned m2 = true := by simp [scanned, truthyQ, hp2, hz2, ha2]
    have hm1L : m1 ∈ groupList (collect ms) (normKey m1.title) := by
      rw [groupList_collect]
      exact List.mem_filter.2 ⟨hm1, by simp [hsc1]⟩
    have hm2L : m2 ∈ groupList (collect ms) (normKey m1.title) := by
      rw [groupList_collect]
      exact List.mem_filter.2 ⟨hm2, by simp [hsc2, hkey]⟩
    have hne : m1 ≠ m2 := fun he => hplat (by rw [he])
    have hLne : groupList (collect ms) (normKey m1.title) ≠ [] := by
      intro h0
      rw [h0] at hm1L
      simp at hm1L
    have hgmem := groupList_mem (collect ms) (normKey m1.title) hLne
    have hlen := two_le_length_of_two_mem _ m1 m2 hne hm1L hm2L
    have hinopp : ∀ (a b : AMarket) (o : Opp),
        (a, b) ∈ pairsFrom (groupList (collect ms) (normKey m1.title)) →
        mkOpp min_spread a b = some o → o ∈ opportunities ms min_spread := by
      intro a b o hpair hmk
      rw [opportunities]
      refine List.mem_flatMap.2
        ⟨(normKey m1.title, groupList (collect ms) (normKey m1.title)), hgmem, ?_⟩
      simp only
      rw [if_neg (not_lt.2 hlen)]
      exact List.mem_filterMap.2 ⟨(a, b), hpair, hmk⟩
    rcases mem_pairsFrom _ m1 m2 hne hm1L hm2L with hpair | hpair
    · refine ⟨_, hinopp m1 m2 _ hpair
        (mkOpp_eq_some min_spread m1 m2 p1 p2 hplat hp1 hz1 hp2 hz2 hsp), rfl, rfl,
        ?_, rfl, rfl, ?_, ?_⟩
      · intro h
        show (if (p1 + p2) / 2 > 0 then
          roundTo 2 (|p1 - p2| / ((p1 + p2) / 2) * 100) else 0) =
          roundTo 2 (|p1 - p2| / ((p1 + p2) / 2) * 100)
        rw [if_pos (half_pos h)]
      · intro h
        constructor
        · show (if p1 < p2 then m1 else m2).platform = m1.platform
          rw [if_pos h]
        · show (if p1 < p2 then m2 else m1).platform = m2.platform
          rw [if_pos h]
      · intro h
        constructor
        · show (if p1 < p2 then m1 else m2).platform = m2.platform
          rw [if_neg (lt_asymm h)]
        · show (if p1 < p2 then m2 else m1).platform = m1.platform
          rw [if_neg (lt_asymm h)]
    · refine ⟨_, hinopp m2 m1 _ hpair
        (mkOpp_eq_some min_spread m2 m1 p2 p1 (Ne.symm hplat) hp2 hz2 hp1 hz1
          (by rw [abs_sub_comm]; exact hsp)), ?_, ?_, ?_, ?_, ?_, ?_, ?_⟩
      · show roundTo 4 |p2 - p1| = roundTo 4 |p1 - p2|
        rw [abs_sub_comm]
      · show (if (p2 + p1) / 2 > 0 then
          roundTo 2 (|p2 - p1| / ((p2 + p1) / 2) * 100) else 0) =
          (if (p1 + p2) / 2 > 0 then
          roundTo 2 (|p1 - p2| / ((p1 + p2) / 2) * 100) else 0)
        rw [add_comm p2 p1, abs_sub_comm p2 p1]
      · intro h
        show (if (p2 + p1) / 2 > 0 then
          roundTo 2 (|p2 - p1| / ((p2 + p1) / 2) * 100) else 0) =
          roundTo 2 (|p1 - p2| / ((p1 + p2) / 2) * 100)
        rw [add_comm p2 p1, abs_sub_comm p2 p1, if_pos (half_pos h)]
      · show min p2 p1 = min p1 p2
        rw [min_comm]
      · show max p2 p1 = max p1 p2
        rw [max_comm]
      · intro h
        constructor
        · show (if p2 < p1 then m2 else m1).platform = m1.platform
          rw [if_neg (lt_asymm h)]
        · show (if p2 < p1 then m1 else m2).platform = m2.platform
          rw [if_neg (lt_asymm h)]
      · intro h
        constructor
        · show (if p2 < p1 then m2 else m1).platform = m2.platform
          rw [if_pos h]
        · show (if p2 < p1 then m1 else m2).platform = m1.platform
          rw [if_pos h]
  · intro o ho
    rw [opportunities] at ho
    obtain ⟨g, hg, ho2⟩ := List.mem_flatMap.1 ho
    by_cases hlen : g.2.length < 2
    · rw [if_pos hlen] at ho2
      simp at ho2
    · rw [if_neg hlen] at ho2
      obtain ⟨pr, hpr, hmk⟩ := List.mem_filterMap.1 ho2
      obtain ⟨ha, hb⟩ := pairsFrom_sub g.2 pr.1 pr.2 hpr
      obtain ⟨hm1ms, hsc1, hkey1⟩ := collect_entry ms g hg pr.1 ha
      obtain ⟨hm2ms, hsc2, hkey2⟩ := collect_entry ms g hg pr.2 hb
      obtain ⟨hplat, p1, p2, hp1, hz1, hp2, hz2, hsp, hos, hopct, hob, hosell⟩ :=
        mkOpp_some_inv min_spread pr.1 pr.2 o hmk
      exact ⟨pr.1, pr.2, p1, p2, hm1ms, hm2ms, hsc1, hsc2, hp1, hp2,
        hkey1.trans hkey2.symm, hplat, hsp, hos, hopct,
        fun h => by rw [hopct, if_pos (half_pos h)], hob, hosell⟩
  · exact List.Pairwise.sublist (List.take_sublist _ _)
      (List.sorted_insertionSort spreadGE _)
  · rw [scan]
    exact List.length_take_le _ _
  · intro o ho
    rw [scan] at ho
    exact (List.perm_insertionSort spreadGE _).subset (List.take_subset _ _ ho)
  · have hk : normKey "g" = "g" := by decide
    have hm : mkOpp (20 : ℚ)⁻¹ ⟨"venueA", "g", some (2/5), true⟩
        ⟨"venueB", "g", some (11/20), true⟩ =
        some ⟨"g", "YES", "venueA", 2/5, "venueB", 11/20, 3/20, 1579/50⟩ := by
      norm_num [mkOpp, truthyQ, roundTo, rhe]
      intro h
      exact absurd h (by decide)
    simp [scan, opportunities, collect, collectAux, scanned, addMarket, hk, pairsFrom, hm,
      truthyQ, List.insertionSort, List.orderedInsert]

/-- Witness for C6: the spec's example pair is reported, and the scan
returns exactly the expected single opportunity. -/
theorem C6_witness :
    (opportunities [⟨"venueA", "g", some (2/5), true⟩, ⟨"venueB", "g", some (11/20), true⟩]
      (1/20) ≠ []) ∧
    (scan [⟨"venueA", "g", some (2/5), true⟩, ⟨"venueB", "g", some (11/20), true⟩]
        (1/20) 20 =
      [⟨"g", "YES", "venueA", 2/5, "venueB", 11/20, 3/20, 1579/50⟩]) := by
  have h := C6_arbitrage_scan
    [⟨"venueA", "g", some (2/5), true⟩, ⟨"venueB", "g", some (11/20), true⟩] (1/20) 20
  have habs : |(2/5 : ℚ) - 11/20| = 3/20 := by
    rw [abs_of_neg (by norm_num)]
    norm_num
  obtain ⟨o, ho, -⟩ := h.1 ⟨"venueA", "g", some (2/5), true⟩
    ⟨"venueB", "g", some (11/20), true⟩ (2/5) (11/20)
    (by simp) (by simp) rfl rfl rfl (by norm_num) rfl (by norm_num) rfl
    (by simp) (by rw [habs]; norm_num)
  refine ⟨fun hemp => ?_, h.2.2.2.2.2⟩
  rw [hemp] at ho
  simp at ho

end Spredd
